import Mathlib

/-!
Verification development for the promise-aware GraphQL execution strategy in
`src/strawberry/schema/execute_context.py`.

The file embeds the module shallowly:
* `is_awaitable`, `promise_for_dict`, and the four overridden methods of
  `ExecutionContextWithPromise` (`execute_operation`, `build_response`,
  `complete_value`, `execute_fields`) are translated from the source.
* The promise library (`strawberry.promise`: `Promise.resolve`, `then`,
  `catch`, `all`, `is_thenable`) and the base-engine collaborators
  (`located_error`, `handle_field_error`, the inherited `super()` methods,
  `default_is_awaitable`) are not part of the visible source; they are
  modelled from the specification (sections 4.1, 4.2, 6) or kept abstract
  as function parameters.

Promises here are single-threaded and cooperative, so a promise is embedded
by its settled outcome: `Except GError Val`.  Per the flattening law of the
spec (4.1), a fulfilled promise always holds a non-promise value.
External stateful collaborators are threaded explicitly through the
execution context state `Ctx` (or a polymorphic state `σ`).
-/

namespace StrawberryExec

/-- A path segment key: a response key or a list index. -/
inductive Key
  | str (s : String)
  | idx (n : Nat)
deriving DecidableEq, Repr

/-- Execution path: immutable singly-linked chain of
(parent path, response key, owning type name); `root` stands for the
absent parent path (`None` in the source). -/
inductive Path
  | root
  | cons (prev : Path) (key : Key) (typename : String)
deriving DecidableEq, Repr

/-- `Path.as_list`: render the path as the ordered list of keys from the
root to this segment (graphql-core `Path.as_list`). -/
def Path.as_list : Path → List Key
  | .root => []
  | .cons prev k _ => prev.as_list ++ [k]

/-- A field node of the parsed query, identified abstractly. -/
abbrev Node := Nat

/-- A GraphQL output type, identified abstractly by name; it is only
carried through to the field-error handler. -/
abbrev RetT := String

/-- An operation definition node, identified abstractly. -/
abbrev Op := Nat

/-- Error record: underlying fault message, the contributing field nodes,
and the execution path rendered as a list.  Raw (not yet located) faults
carry empty `nodes` and `path`. -/
structure GError where
  message : String
  nodes : List Node
  path : List Key
deriving DecidableEq, Repr

/-- Modelled from the spec: `located_error` of the base engine builds an
Error Record from an underlying fault by attaching the field-node list and
the execution path rendered as an ordered list (spec section 6,
"Error-record shape"). -/
def located_error (raw : GError) (nodes : List Node) (path : List Key) : GError :=
  { message := raw.message, nodes := nodes, path := path }

/-- A concrete (non-deferred) runtime value. -/
inductive Val
  | none
  | int (n : Int)
  | str (s : String)
  | bool (b : Bool)
  | list (xs : List Val)
  | dict (xs : List (String × Val))

/-- A resolution result: either a concrete value or one of the engine's
deferred values (a promise), embedded by its settled outcome.  By the
flattening law (spec 4.1) a fulfilled promise holds a concrete value. -/
inductive Res
  | plain (v : Val)
  | prom (s : Except GError Val)

/-- `is_thenable` from `strawberry.promise`: modelled from the spec as the
capability test "is this object one of our deferred values" (spec 4.1). -/
def is_thenable : Res → Bool
  | .prom _ => true
  | .plain _ => false

namespace Promise

/-- Modelled from the spec: `Promise.resolve` wraps a value (already
deferred or not) into a fulfilled deferred value without double-wrapping
(spec 4.1, flattening law). -/
def resolve : Res → Except GError Val
  | .plain v => .ok v
  | .prom s => s

/-- Modelled from the spec: `Promise.all` fulfills with the ordered list of
settled results once every input settles, or rejects with the first
rejection encountered (spec 4.1). -/
def all : List Res → Except GError (List Val)
  | [] => .ok []
  | v :: vs =>
    match resolve v with
    | .error e => .error e
    | .ok x => (all vs).map (fun xs => x :: xs)

end Promise

/-- `is_awaitable` from the source: the engine's own deferred values are
never awaitable; otherwise defer to the host environment's default
detector, which is kept abstract as the parameter
`default_is_awaitable`. -/
def is_awaitable (default_is_awaitable : Res → Bool) (value : Res) : Bool :=
  if is_thenable value then false
  else default_is_awaitable value

/-- `promise_for_dict` from the source: combine the mapping's values with
`Promise.all`, then zip the settled result list back onto the original
ordered keys (the `.then(handle_success)` step is the `Except.map`). -/
def promise_for_dict (value : List (String × Res)) :
    Except GError (List (String × Val)) :=
  (Promise.all (value.map Prod.snd)).map
    (fun resolved_values => List.zip (value.map Prod.fst) resolved_values)

/-- The mutable part of the execution context visible to the claims: the
per-operation error list, plus a log of the invocations of the base
engine's field-error handler. -/
structure Ctx where
  errors : List GError
  handlerCalls : List (GError × RetT)
deriving DecidableEq, Repr

/-- Modelled from the spec: the base engine's `handle_field_error` records
the located error in the context's error list (spec section 6: the handler
is reused unchanged, this core only guarantees it is invoked with the
correctly-shaped Error Record); the invocation itself is logged so that
theorems can speak about it. -/
def handle_field_error (e : GError) (return_type : RetT) (c : Ctx) : Ctx :=
  { errors := c.errors ++ [e],
    handlerCalls := c.handlerCalls ++ [(e, return_type)] }

/-- `execute_operation` from the source: chain the base (super-class)
operation execution onto `Promise.resolve(None)` via `.then`, so the
result is always a promise; the base execution is abstract. -/
def execute_operation {σ : Type} (base : Op → Val → σ → Res × σ)
    (operation : Op) (root_value : Val) (s : σ) : Res × σ :=
  let (r, s') := base operation root_value s
  (.prom (Promise.resolve r), s')

/-- `build_response` from the source: if the data is thenable, register
`catch(on_rejected).then(on_resolve)` and `get()` the settled envelope —
on rejection append the error to the context's error list and build with
null data, on fulfillment forward the settled data to the base builder;
if the data is not thenable, forward it to the base builder directly.
The base (super-class) envelope builder is abstract. -/
def build_response {ρ : Type} (base : Val → Ctx → ρ × Ctx)
    (data : Res) (c : Ctx) : ρ × Ctx :=
  match data with
  | .prom s =>
    match s with
    | .error e => base Val.none { c with errors := c.errors ++ [e] }
    | .ok v => base v c
  | .plain v => base v c

/-- `complete_value` from the source: a thenable result is settled via
`Promise.resolve(result).then(handle_resolve, handle_error)` — on success
recurse into `complete_value` with the settled value and the identical
return type, field nodes, info and path (the `.then` flattening is the
outer `Promise.resolve`); on failure build the located error, hand it to
`handle_field_error` with the return type, and fulfill with `None`.
A non-thenable result is delegated to the abstract base (super-class)
completion. -/
def complete_value {ι : Type}
    (base : RetT → List Node → ι → Path → Val → Ctx → Res × Ctx)
    (return_type : RetT) (field_nodes : List Node) (info : ι) (path : Path)
    (result : Res) (c : Ctx) : Res × Ctx :=
  match result with
  | .prom (.ok resolved) =>
    let (r, c') :=
      complete_value base return_type field_nodes info path (.plain resolved) c
    (.prom (Promise.resolve r), c')
  | .prom (.error raw_error) =>
    let error := located_error raw_error field_nodes path.as_list
    let c' := handle_field_error error return_type c
    (.prom (.ok .none), c')
  | .plain v => base return_type field_nodes info path v c
termination_by sizeOf result
decreasing_by simp

/-- The return type of `execute_fields`: either the plain ordered mapping
(fast path) or the single deferred mapping from `promise_for_dict`
(slow path). -/
inductive FieldsResult
  | plain (results : List (String × Res))
  | prom (p : Except GError (List (String × Val)))

/-- The field loop of `execute_fields`: for each response key build the
fresh path segment, invoke the abstract stateful `resolve_field`, skip the
`Undefined` sentinel (embedded as `none`), collect the remaining results
in declared order and track whether any collected result is thenable. -/
def fieldsLoop {σ : Type}
    (resolve_field : σ → String → Val → List Node → Path → Option Res × σ)
    (parent_type : String) (source_value : Val) (path : Path) :
    List (String × List Node) → σ → List (String × Res) × Bool × σ
  | [], s => ([], false, s)
  | (response_name, field_nodes) :: rest, s =>
    let field_path := Path.cons path (.str response_name) parent_type
    let (result?, s₁) :=
      resolve_field s parent_type source_value field_nodes field_path
    match result? with
    | none =>
      fieldsLoop resolve_field parent_type source_value path rest s₁
    | some result =>
      let (tail, contains_promise, s₂) :=
        fieldsLoop resolve_field parent_type source_value path rest s₁
      ((response_name, result) :: tail,
       is_thenable result || contains_promise, s₂)

/-- `execute_fields` from the source: run the field loop; if any collected
result is thenable return `promise_for_dict` of the whole mapping,
otherwise return the plain mapping. -/
def execute_fields {σ : Type}
    (resolve_field : σ → String → Val → List Node → Path → Option Res × σ)
    (parent_type : String) (source_value : Val) (path : Path)
    (fields : List (String × List Node)) (s : σ) : FieldsResult × σ :=
  let (results, contains_promise, s') :=
    fieldsLoop resolve_field parent_type source_value path fields s
  (if contains_promise then .prom (promise_for_dict results)
   else .plain results, s')

/-- Instrumentation: wrap an abstract `resolve_field` so that every
invocation appends the path it was given to a log, leaving its behaviour
otherwise unchanged; used to state how often and in which order
`execute_fields` invokes the resolver. -/
def withTrace {σ : Type}
    (resolve_field : σ → String → Val → List Node → Path → Option Res × σ) :
    σ × List Path → String → Val → List Node → Path →
      Option Res × (σ × List Path) :=
  fun p parent_type source_value field_nodes field_path =>
    let (r, s') :=
      resolve_field p.1 parent_type source_value field_nodes field_path
    (r, (s', p.2 ++ [field_path]))

/-- Lift a pure resolver into the stateful interface. -/
def pureRf (g : String → Val → List Node → Path → Option Res) :
    Unit → String → Val → List Node → Path → Option Res × Unit :=
  fun _ parent_type source_value field_nodes field_path =>
    (g parent_type source_value field_nodes field_path, ())

/-! ## Supporting lemmas -/

/-- `Promise.all` characterisation: a fulfilled combination has one settled
result per input, in order, each being the settled outcome of the
corresponding input. -/
theorem promise_all_ok_spec :
    ∀ (vs : List Res) (rs : List Val), Promise.all vs = .ok rs →
      rs.length = vs.length
      ∧ ∀ i, rs.get? i = (vs.get? i).bind (fun v => (Promise.resolve v).toOption) := by
  intro vs
  induction vs with
  | nil =>
    intro rs h
    simp only [Promise.all] at h
    cases h
    exact ⟨rfl, fun i => by cases i <;> rfl⟩
  | cons v vs' ih =>
    intro rs h
    simp only [Promise.all] at h
    cases hv : Promise.resolve v with
    | error e => rw [hv] at h; cases h
    | ok x =>
      rw [hv] at h
      cases hall : Promise.all vs' with
      | error e => rw [hall] at h; cases h
      | ok rs' =>
        rw [hall] at h
        simp only [Except.map] at h
        cases h
        obtain ⟨hlen, hget⟩ := ih rs' hall
        refine ⟨by simp [hlen], ?_⟩
        intro i
        cases i with
        | zero => simp [hv, Except.toOption]
        | succ n => simpa using hget n

/-- The promise-detection flag threaded through the field loop is true
exactly when some collected result is thenable. -/
theorem fieldsLoop_flag_eq_any {σ : Type}
    (rf : σ → String → Val → List Node → Path → Option Res × σ)
    (pt : String) (src : Val) (path : Path) :
    ∀ (fields : List (String × List Node)) (s : σ),
      (fieldsLoop rf pt src path fields s).2.1
        = ((fieldsLoop rf pt src path fields s).1).any
            (fun kr => is_thenable kr.2) := by
  intro fields
  induction fields with
  | nil => intro s; rfl
  | cons kn rest ih =>
    intro s
    obtain ⟨name, nodes⟩ := kn
    simp only [fieldsLoop]
    cases hrf : rf s pt src nodes (Path.cons path (Key.str name) pt) with
    | mk r? s₁ =>
      cases r? with
      | none => simpa using ih s₁
      | some result =>
        cases hloop : fieldsLoop rf pt src path rest s₁ with
        | mk tail pr =>
          cases pr with
          | mk cp s₂ =>
            have := ih s₁
            rw [hloop] at this
            simp only at this
            simp [this]

/-- The state returned by `execute_fields` is the state left by its field
loop. -/
theorem execute_fields_state {σ : Type}
    (rf : σ → String → Val → List Node → Path → Option Res × σ)
    (pt : String) (src : Val) (path : Path)
    (fields : List (String × List Node)) (s : σ) :
    (execute_fields rf pt src path fields s).2
      = (fieldsLoop rf pt src path fields s).2.2 := by
  simp only [execute_fields]

/-- With a tracing resolver, the field loop logs exactly one invocation
per declared response key, in declared order, each with the fresh path
segment built from the parent path, the response key and the parent type
name. -/
theorem fieldsLoop_trace {σ : Type}
    (rf : σ → String → Val → List Node → Path → Option Res × σ)
    (pt : String) (src : Val) (path : Path) :
    ∀ (fields : List (String × List Node)) (s : σ) (log : List Path),
      (fieldsLoop (withTrace rf) pt src path fields (s, log)).2.2.2
        = log ++ fields.map (fun kn => Path.cons path (Key.str kn.1) pt) := by
  intro fields
  induction fields with
  | nil => intro s log; simp [fieldsLoop]
  | cons kn rest ih =>
    intro s log
    obtain ⟨name, nodes⟩ := kn
    simp only [fieldsLoop, withTrace]
    cases hrf : rf s pt src nodes (Path.cons path (Key.str name) pt) with
    | mk r? s₁ =>
      cases r? with
      | none => simp [ih s₁]
      | some result =>
        cases hloop : fieldsLoop (withTrace rf) pt src path rest
            (s₁, log ++ [Path.cons path (Key.str name) pt]) with
        | mk tail pr =>
          have := ih s₁ (log ++ [Path.cons path (Key.str name) pt])
          rw [hloop] at this
          simp only at this
          simp [hloop, this]

/-- With a pure resolver, the field loop collects, in declared order, one
entry per response key whose resolution is not the absent sentinel, and no
entry at all for a key resolving to the sentinel. -/
theorem fieldsLoop_pure_results
    (g : String → Val → List Node → Path → Option Res)
    (pt : String) (src : Val) (path : Path) :
    ∀ (fields : List (String × List Node)),
      (fieldsLoop (pureRf g) pt src path fields ()).1
        = fields.filterMap (fun kn =>
            (g pt src kn.2 (Path.cons path (Key.str kn.1) pt)).map
              (fun r => (kn.1, r))) := by
  intro fields
  induction fields with
  | nil => rfl
  | cons kn rest ih =>
    obtain ⟨name, nodes⟩ := kn
    simp only [fieldsLoop, pureRf, List.filterMap]
    cases hg : g pt src nodes (Path.cons path (Key.str name) pt) with
    | none => simpa using ih
    | some result => simp [ih]

/-- The field loop extends the context's error list by appending only,
provided the resolver itself only appends. -/
theorem fieldsLoop_errors_extend
    (rf : Ctx → String → Val → List Node → Path → Option Res × Ctx)
    (hrf : ∀ c pt src nodes p, ∃ t, (rf c pt src nodes p).2.errors = c.errors ++ t)
    (pt : String) (src : Val) (path : Path) :
    ∀ (fields : List (String × List Node)) (c : Ctx),
      ∃ t, (fieldsLoop rf pt src path fields c).2.2.errors = c.errors ++ t := by
  intro fields
  induction fields with
  | nil => intro c; exact ⟨[], by simp [fieldsLoop]⟩
  | cons kn rest ih =>
    intro c
    obtain ⟨name, nodes⟩ := kn
    simp only [fieldsLoop]
    cases hr : rf c pt src nodes (Path.cons path (Key.str name) pt) with
    | mk r? s₁ =>
      obtain ⟨t₁, ht₁⟩ := hrf c pt src nodes (Path.cons path (Key.str name) pt)
      rw [hr] at ht₁
      simp only at ht₁
      obtain ⟨t₂, ht₂⟩ := ih s₁
      cases r? with
      | none => exact ⟨t₁ ++ t₂, by rw [ht₂, ht₁, List.append_assoc]⟩
      | some result =>
        cases hloop : fieldsLoop rf pt src path rest s₁ with
        | mk tail pr =>
          cases pr with
          | mk cp s₂ =>
            rw [hloop] at ht₂
            simp only at ht₂
            exact ⟨t₁ ++ t₂, by simp [ht₂, ht₁]⟩

/-! ## Theorems -/

/-- C7: for every value that is one of the engine's own deferred values
(`is_thenable` holds), the engine's `is_awaitable` classifies it as not
awaitable, whatever the host environment's default detector
(`dia`, quantified over all detectors) would say about it. -/
theorem claim_C7_promise_not_awaitable
    (dia : Res → Bool) (s : Except GError Val) :
    is_thenable (Res.prom s) = true ∧ is_awaitable dia (Res.prom s) = false := by
  constructor
  · rfl
  · simp [is_awaitable, is_thenable]

/-- C10: the engine's `is_awaitable` holds exactly when the value is not
one of the engine's deferred values and the host environment's default
detector classifies it as awaitable. -/
theorem claim_C10_awaitable_agrees_with_default
    (dia : Res → Bool) (v : Res) :
    is_awaitable dia v = true ↔ (is_thenable v = false ∧ dia v = true) := by
  cases v <;> simp [is_awaitable, is_thenable]

/-- C6: for every operation node and root value, `execute_operation`
returns a deferred value (never a plain one): it is exactly the base
execution's outcome chained onto the already-resolved trivial promise. -/
theorem claim_C6_execute_operation_always_promise
    {σ : Type} (base : Op → Val → σ → Res × σ)
    (operation : Op) (root_value : Val) (s : σ) :
    is_thenable (execute_operation base operation root_value s).1 = true
    ∧ execute_operation base operation root_value s
        = (Res.prom (Promise.resolve (base operation root_value s).1),
           (base operation root_value s).2) := by
  cases hb : base operation root_value s with
  | mk r s' => exact ⟨by simp [execute_operation, hb, is_thenable],
      by simp [execute_operation, hb]⟩

/-- C3: `build_response` never lets a failure escape: on a rejected
deferred value the rejection is appended to the context's error list and
the base envelope builder is invoked with null data; on a fulfilled
deferred value the settled data is forwarded to the base builder; plain
data is forwarded directly.  Being a total function of its inputs, every
case produces an envelope. -/
theorem claim_C3_build_response_captures_failures
    {ρ : Type} (base : Val → Ctx → ρ × Ctx) (c : Ctx) :
    (∀ e, build_response base (Res.prom (.error e)) c
        = base Val.none { c with errors := c.errors ++ [e] })
    ∧ (∀ v, build_response base (Res.prom (.ok v)) c = base v c)
    ∧ (∀ v, build_response base (Res.plain v) c = base v c) :=
  ⟨fun _ => rfl, fun _ => rfl, fun _ => rfl⟩

/-- C4: on a rejected deferred resolution result, `complete_value` builds
the located error from the raw fault with the field's node list and the
path rendered as a list, passes exactly that record together with the
field's return type to the field-error handler, and fulfills the field's
own contribution with `None`. -/
theorem claim_C4_complete_value_rejection
    {ι : Type} (base : RetT → List Node → ι → Path → Val → Ctx → Res × Ctx)
    (return_type : RetT) (field_nodes : List Node) (info : ι) (path : Path)
    (raw : GError) (c : Ctx) :
    complete_value base return_type field_nodes info path
        (Res.prom (.error raw)) c
      = (Res.prom (.ok Val.none),
         handle_field_error (located_error raw field_nodes path.as_list)
           return_type c)
    ∧ (located_error raw field_nodes path.as_list).nodes = field_nodes
    ∧ (located_error raw field_nodes path.as_list).path = path.as_list
    ∧ (handle_field_error (located_error raw field_nodes path.as_list)
         return_type c).handlerCalls
        = c.handlerCalls
            ++ [(located_error raw field_nodes path.as_list, return_type)] := by
  refine ⟨?_, rfl, rfl, rfl⟩
  rw [complete_value]

/-- C5: on a fulfilled deferred resolution result, `complete_value`
re-invokes itself on the settled value with the identical return type,
field nodes, info and path (the continuation's outcome being flattened
back into a deferred value); on a non-deferred result it delegates
unchanged to the base completion. -/
theorem claim_C5_complete_value_recursion_and_delegation
    {ι : Type} (base : RetT → List Node → ι → Path → Val → Ctx → Res × Ctx)
    (return_type : RetT) (field_nodes : List Node) (info : ι) (path : Path)
    (v : Val) (c : Ctx) :
    complete_value base return_type field_nodes info path
        (Res.prom (.ok v)) c
      = (Res.prom (Promise.resolve
            (complete_value base return_type field_nodes info path
              (Res.plain v) c).1),
         (complete_value base return_type field_nodes info path
            (Res.plain v) c).2)
    ∧ complete_value base return_type field_nodes info path (Res.plain v) c
        = base return_type field_nodes info path v c := by
  constructor
  · rw [complete_value]
  · rw [complete_value]

/-- C1: `execute_fields` returns the plain collected mapping exactly when
no collected result is thenable, and otherwise returns the single deferred
mapping obtained by routing the whole collected mapping through
`promise_for_dict`. -/
theorem claim_C1_fast_path_slow_path {σ : Type}
    (rf : σ → String → Val → List Node → Path → Option Res × σ)
    (pt : String) (src : Val) (path : Path)
    (fields : List (String × List Node)) (s : σ) :
    (execute_fields rf pt src path fields s).1
      = (if ((fieldsLoop rf pt src path fields s).1).any
              (fun kr => is_thenable kr.2)
         then FieldsResult.prom
            (promise_for_dict (fieldsLoop rf pt src path fields s).1)
         else FieldsResult.plain (fieldsLoop rf pt src path fields s).1) := by
  have h := fieldsLoop_flag_eq_any rf pt src path fields s
  cases hloop : fieldsLoop rf pt src path fields s with
  | mk results pr =>
    cases pr with
    | mk cp s' =>
      rw [hloop] at h
      simp only at h
      simp [execute_fields, hloop, h]
      rw [hloop]
      simp only
      rw [h]

/-- C2: `promise_for_dict` fulfills with the mapping pairing the original
keys, in their original iteration order, with the settled results of the
`all` combination of the values: when `all` fulfills with `rs`, the result
is the zip of the original keys with `rs`, whose key list equals the
original key list, `rs` has one settled result per entry, and the i-th
settled result is the settled outcome of the i-th value. -/
theorem claim_C2_promise_for_dict_preserves_keys
    (value : List (String × Res)) (rs : List Val)
    (h : Promise.all (value.map Prod.snd) = .ok rs) :
    promise_for_dict value = .ok (List.zip (value.map Prod.fst) rs)
    ∧ (List.zip (value.map Prod.fst) rs).map Prod.fst = value.map Prod.fst
    ∧ rs.length = value.length
    ∧ ∀ i, rs.get? i
        = (value.get? i).bind (fun kv => (Promise.resolve kv.2).toOption) := by
  obtain ⟨hlen, hget⟩ := promise_all_ok_spec _ rs h
  have hlen' : rs.length = value.length := by simpa using hlen
  refine ⟨?_, ?_, hlen', ?_⟩
  · simp [promise_for_dict, h, Except.map]
  · exact List.map_fst_zip _ _ (by simp [hlen'])
  · intro i
    rw [hget i]
    have hmap : (value.map Prod.snd).get? i = (value.get? i).map Prod.snd := by
      simp [List.get?_eq_getElem?]
    rw [hmap]
    cases hv : value.get? i <;> simp [hv]

/-- C2 witness: a two-entry mapping with one plain and one deferred value
settles to the plain mapping in declared key order. -/
theorem claim_C2_witness :
    promise_for_dict
        [("a", Res.plain (Val.int 1)), ("b", Res.prom (Except.ok (Val.int 2)))]
      = Except.ok [("a", Val.int 1), ("b", Val.int 2)] :=
  (claim_C2_promise_for_dict_preserves_keys
    [("a", Res.plain (Val.int 1)), ("b", Res.prom (Except.ok (Val.int 2)))]
    [Val.int 1, Val.int 2] rfl).1

/-- C8: for every response key of the declared field set, `execute_fields`
invokes the resolver exactly once, in declared order, with the fresh path
segment built from the parent path, the response key and the parent type
name (shown by instrumenting an arbitrary stateful resolver); and with a
pure resolver the collected mapping holds, in declared order, exactly the
keys whose resolution is not the absent sentinel — a sentinel key
contributes no entry at all. -/
theorem claim_C8_invocations_and_undefined_skipped
    (pt : String) (src : Val) (path : Path)
    (fields : List (String × List Node)) :
    (∀ (σ : Type) (rf : σ → String → Val → List Node → Path → Option Res × σ)
        (s : σ),
      (execute_fields (withTrace rf) pt src path fields (s, ([] : List Path))).2.2
        = fields.map (fun kn => Path.cons path (Key.str kn.1) pt))
    ∧ (∀ g : String → Val → List Node → Path → Option Res,
      (fieldsLoop (pureRf g) pt src path fields ()).1
        = fields.filterMap (fun kn =>
            (g pt src kn.2 (Path.cons path (Key.str kn.1) pt)).map
              (fun r => (kn.1, r)))) := by
  constructor
  · intro σ rf s
    rw [execute_fields_state]
    simpa using fieldsLoop_trace rf pt src path fields s []
  · intro g
    exact fieldsLoop_pure_results g pt src path fields

/-- C9: the context's error list is append-only across the engine's
operations: `build_response`, `complete_value` (including its rejection
branch), `handle_field_error` and `execute_fields` each leave the incoming
error list as a prefix of the outgoing one, assuming their abstract
collaborators do. -/
theorem claim_C9_error_list_append_only :
    (∀ (ρ : Type) (base : Val → Ctx → ρ × Ctx),
      (∀ v c, ∃ t, (base v c).2.errors = c.errors ++ t) →
      ∀ (data : Res) (c : Ctx),
        ∃ t, (build_response base data c).2.errors = c.errors ++ t)
    ∧ (∀ (ι : Type)
        (base : RetT → List Node → ι → Path → Val → Ctx → Res × Ctx),
      (∀ rt nodes (info : ι) path v c,
        ∃ t, (base rt nodes info path v c).2.errors = c.errors ++ t) →
      ∀ rt nodes (info : ι) path (r : Res) (c : Ctx),
        ∃ t, (complete_value base rt nodes info path r c).2.errors
          = c.errors ++ t)
    ∧ (∀ e rt c, ∃ t, (handle_field_error e rt c).errors = c.errors ++ t)
    ∧ (∀ (rf : Ctx → String → Val → List Node → Path → Option Res × Ctx),
      (∀ c pt src nodes p,
        ∃ t, (rf c pt src nodes p).2.errors = c.errors ++ t) →
      ∀ pt src path fields (c : Ctx),
        ∃ t, (execute_fields rf pt src path fields c).2.errors
          = c.errors ++ t) := by
  refine ⟨?_, ?_, ?_, ?_⟩
  · intro ρ base hb data c
    cases data with
    | plain v => exact hb v c
    | prom s =>
      cases s with
      | ok v => exact hb v c
      | error e =>
        obtain ⟨t, ht⟩ := hb Val.none { c with errors := c.errors ++ [e] }
        exact ⟨[e] ++ t, by simp only [build_response]; rw [ht]; simp⟩
  · intro ι base hb rt nodes info path r c
    cases r with
    | plain v => rw [complete_value]; exact hb rt nodes info path v c
    | prom s =>
      cases s with
      | ok v =>
        rw [complete_value]
        cases hc : complete_value base rt nodes info path (Res.plain v) c with
        | mk r' c' =>
          rw [complete_value] at hc
          obtain ⟨t, ht⟩ := hb rt nodes info path v c
          rw [hc] at ht
          exact ⟨t, ht⟩
      | error raw =>
        rw [complete_value]
        exact ⟨[located_error raw nodes path.as_list], rfl⟩
  · exact fun e rt c => ⟨[e], rfl⟩
  · intro rf hrf pt src path fields c
    rw [execute_fields_state]
    exact fieldsLoop_errors_extend rf hrf pt src path fields c

/-- C9 witness: with a trivial envelope builder and a rejecting deferred
value, and with a trivial base completion on a rejecting result, the error
lists only grow. -/
theorem claim_C9_witness :
    (∃ t, (build_response (fun v c => (v, c))
        (Res.prom (Except.error ⟨"boom", [], []⟩))
        ⟨[], []⟩).2.errors = ([] : List GError) ++ t)
    ∧ (∃ t, (complete_value (fun _ _ _ _ v c => (Res.plain v, c))
        "T" [] () Path.root
        (Res.prom (Except.error ⟨"x", [], []⟩))
        ⟨[], []⟩).2.errors = ([] : List GError) ++ t) :=
  ⟨claim_C9_error_list_append_only.1 Val (fun v c => (v, c))
      (fun _ c => ⟨[], (List.append_nil c.errors).symm⟩)
      (Res.prom (Except.error ⟨"boom", [], []⟩)) ⟨[], []⟩,
   claim_C9_error_list_append_only.2.1 Unit
      (fun _ _ _ _ v c => (Res.plain v, c))
      (fun _ _ _ _ _ c => ⟨[], (List.append_nil c.errors).symm⟩)
      "T" [] () Path.root (Res.prom (Except.error ⟨"x", [], []⟩)) ⟨[], []⟩⟩

end StrawberryExec
